import Mathlib

/-!
Verification development for the xref repository (src/git.py, src/update.py).

The Python source is shallowly embedded: pure string manipulation becomes
Lean functions over `String` and `List Char`; the mutable revision cache of
`GitRepository` becomes explicit state passing; Python exceptions become
`Except`; external processes (git, the filesystem, the updaters' side
effects) become oracle parameters.
-/

namespace Xref

/-! ## Python string primitives

Each definition mirrors one Python string operation used by the source:
`str.strip`, `str.split(' ', 1)`, `str.split(' ', 2)`, `str.split("\n")`,
`"\n".join`, and `re.sub("#.*", "", line)` (on a line without newlines).
-/

/-- Python whitespace for `str.strip`: space, tab, newline, carriage return,
vertical tab, form feed. -/
def pyWs (c : Char) : Bool :=
  c = ' ' || c = '\t' || c = '\n' || c = '\r' || c = '\x0b' || c = '\x0c'

/-- Strip Python whitespace from both ends of a character list. -/
def pyStripChars (l : List Char) : List Char :=
  ((l.dropWhile pyWs).reverse.dropWhile pyWs).reverse

/-- Python `str.strip()`. -/
def pyStrip (s : String) : String :=
  String.mk (pyStripChars s.data)

/-- Helper for `split1`: scan for the first space, accumulating the
characters seen so far in reverse. -/
def split1Aux : List Char → List Char → List (List Char)
  | [], acc => [acc.reverse]
  | c :: cs, acc => if c = ' ' then [acc.reverse, cs] else split1Aux cs (c :: acc)

/-- Python `str.split(' ', 1)`: at most one split, at the first space. -/
def split1 (s : String) : List String :=
  (split1Aux s.data []).map String.mk

/-- Python `str.split(' ', 2)`: at most two splits, at the first two spaces. -/
def split2 (s : String) : List String :=
  match split1 s with
  | [a, rest] =>
    match split1 rest with
    | [b, c] => [a, b, c]
    | other => a :: other
  | other => other

/-- Helper for `splitLines`: split at every newline character. -/
def splitLinesAux : List Char → List Char → List (List Char)
  | [], acc => [acc.reverse]
  | c :: cs, acc =>
    if c = '\n' then acc.reverse :: splitLinesAux cs [] else splitLinesAux cs (c :: acc)

/-- Python `str.split("\n")`. -/
def splitLines (s : String) : List String :=
  (splitLinesAux s.data []).map String.mk

/-- Python `"\n".join(lines)`. -/
def pyJoinNl : List String → String
  | [] => ""
  | [l] => l
  | l :: ls => l ++ "\n" ++ pyJoinNl ls

/-- Python `lines.index(x)` as an `Option`: the index of the first
occurrence satisfying the test, `none` when absent (Python raises
`ValueError` then). -/
def indexOf1 (p : String → Bool) : List String → Option Nat
  | [] => none
  | x :: xs => if p x then some 0 else (indexOf1 p xs).map (· + 1)

/-- Python `re.sub("#.*", "", line)` for a line that contains no newline:
drop everything from the first `#` on. -/
def stripComment (s : String) : String :=
  String.mk (s.data.takeWhile (· ≠ '#'))

/-! ## Python dictionaries as association lists -/

/-- Python `d[k]` / `k in d` as an `Option` lookup on an association list. -/
def dictGet? {α : Type} (k : String) : List (String × α) → Option α
  | [] => none
  | p :: rest => if p.1 == k then some p.2 else dictGet? k rest

/-- Python `d[k] = v`: replace the value at the first occurrence of the key,
or append a fresh binding. -/
def dictInsert {α : Type} (m : List (String × α)) (k : String) (v : α) :
    List (String × α) :=
  match m with
  | [] => [(k, v)]
  | p :: rest => if p.1 == k then (k, v) :: rest else p :: dictInsert rest k v

/-! ## Error model

Python exceptions raised by the embedded code. -/

/-- A `subprocess.CalledProcessError`: nonzero exit of an external command,
carrying the return code and the captured output. -/
inductive PyErr : Type
  | calledProcessError (returncode : Int) (output : String)
  deriving DecidableEq, Repr

/-- Errors raised while building a `GitCommit` from a raw description
(`GitCommit.__init__`). The spec groups the tree-multiplicity failures under
the name `MalformedCommitError`. -/
inductive CommitError : Type
  | valueErrorNoBlankLine
  | malformedCommit
  | indexError
  deriving DecidableEq, Repr

/-! ## git.py: commit description parsing (`GitCommit.__init__`)

The constructor splits the description into lines, locates the first blank
line, splits each header line at its first space, joins the remaining lines
into the summary, unpacks exactly one `tree` field, and collects the
`parent` fields in order.
-/

/-- The fields `GitCommit.__init__` extracts from a raw commit description. -/
structure CommitInfo : Type where
  tree : String
  parents : List String
  summary : String
  deriving DecidableEq, Repr

/-- Python `self.tree, = (field[1] for field in fields if field[0] == 'tree')`:
pull the first `tree` field (its missing value is an `IndexError`), then make
sure no second `tree` field follows (zero or two such fields is the
`ValueError` the spec calls `MalformedCommitError`). Like the Python
generator, fields past the second `tree` are never examined. -/
def extractTree : List (List String) → Except CommitError String
  | [] => .error .malformedCommit
  | f :: rest =>
    if f.head? == some "tree" then
      match f.get? 1 with
      | none => .error .indexError
      | some v =>
        match rest.find? (fun g => g.head? == some "tree") with
        | none => .ok v
        | some g =>
          match g.get? 1 with
          | none => .error .indexError
          | some _ => .error .malformedCommit
    else extractTree rest

/-- Python `[field[1] for field in fields if field[0] == key]`: the values of
all fields with the given key, in order; a matching field without a value is
an `IndexError`. -/
def fieldValues (key : String) : List (List String) → Except CommitError (List String)
  | [] => .ok []
  | f :: rest =>
    if f.head? == some key then
      match f.get? 1 with
      | none => .error .indexError
      | some v => (fieldValues key rest).map (v :: ·)
    else fieldValues key rest

/-- The parsing part of `GitCommit.__init__` (src/git.py lines 118-124),
applied to the already-stripped description text. -/
def parse_commit (desc : String) : Except CommitError CommitInfo :=
  match indexOf1 (· == "") (splitLines desc) with
  | none => .error .valueErrorNoBlankLine
  | some sep =>
    match extractTree (((splitLines desc).take sep).map split1) with
    | .error e => .error e
    | .ok t =>
      match fieldValues "parent" (((splitLines desc).take sep).map split1) with
      | .error e => .error e
      | .ok ps => .ok ⟨t, ps, pyJoinNl ((splitLines desc).drop (sep + 1))⟩

example : parse_commit "tree abc\nparent p1\nparent p2\n\nhello\nworld" =
    .ok ⟨"abc", ["p1", "p2"], "hello\nworld"⟩ := by rfl

example : parse_commit "author a\n\nmsg" = .error .malformedCommit := by rfl

example : parse_commit "tree a\ntree b\n\nmsg" = .error .malformedCommit := by rfl

/-! ## git.py: ancestry queries (`GitRepository.is_ancestor`)

The method runs `git merge-base --is-ancestor older newer`; a zero exit
means yes, exit code 1 means no, and any other `CalledProcessError` is
re-raised.
-/

/-- A commit graph: each node's hash mapped to the list of its parent
hashes. Used to model the history the external git tool inspects. -/
def Dag : Type := List (String × List String)

/-- Parent hashes of a node in the graph (empty for unknown nodes). -/
def parentsOf (d : Dag) (h : String) : List String :=
  match dictGet? h d with
  | some ps => ps
  | none => []

/-- Fuel-bounded reachability in the commit graph: `x` is an ancestor of
`y` when they are equal or `x` is an ancestor of one of `y`'s parents. -/
def ancestorFuel (d : Dag) : Nat → String → String → Bool
  | 0, _, _ => false
  | n + 1, x, y => x == y || (parentsOf d y).any (fun p => ancestorFuel d n x p)

/-- Ancestry in a commit graph, with fuel enough to cover any acyclic
history over the graph's nodes: equality counts as ancestry. -/
def isAncestorIn (d : Dag) (x y : String) : Bool :=
  ancestorFuel d (d.length + 1) x y

/-- Modelled from the spec: the external `git merge-base --is-ancestor`
invocation, which is not part of this repository. Per the spec (§4.1) and
the git contract the source relies on, it exits 0 when `older` is an
ancestor of `newer` or the two are equal, and exits 1 (the reserved
"not an ancestor" code) otherwise. -/
def gitMergeBaseIsAncestor (d : Dag) (older newer : String) : Except PyErr String :=
  if isAncestorIn d older newer then .ok "" else .error (.calledProcessError 1 "")

/-- `GitRepository.is_ancestor` (src/git.py lines 74-85), parametrized by
the result of the `git merge-base --is-ancestor` invocation: a successful
invocation yields `true`, a `CalledProcessError` with return code 1 yields
`false`, and any other error is re-raised. -/
def is_ancestor (invocation : Except PyErr String) : Except PyErr Bool :=
  match invocation with
  | .ok _ => .ok true
  | .error (.calledProcessError rc out) =>
    if rc = 1 then .ok false else .error (.calledProcessError rc out)

/-! ## git.py: `GitCommit` comparison operators

Each operator reads only the two operands' hash strings; the ancestry
queries go through the left operand's own repository.
-/

/-- A `GitCommit` as seen by the comparison operators: its owning
repository's history and its hash. -/
structure GitCommitRef : Type where
  repo : Dag
  hash : String

/-- `GitCommit.__eq__`: hash equality. -/
def GitCommitRef.eq (c1 c2 : GitCommitRef) : Bool :=
  c1.hash == c2.hash

/-- `GitCommit.__ne__`: hash inequality. -/
def GitCommitRef.ne (c1 c2 : GitCommitRef) : Bool :=
  c1.hash != c2.hash

/-- `GitCommit.__le__`: `self.repo.is_ancestor(self.hash, rev2.hash)`. -/
def GitCommitRef.le (c1 c2 : GitCommitRef) : Except PyErr Bool :=
  is_ancestor (gitMergeBaseIsAncestor c1.repo c1.hash c2.hash)

/-- `GitCommit.__ge__`: `self.repo.is_ancestor(rev2.hash, self.hash)`. -/
def GitCommitRef.ge (c1 c2 : GitCommitRef) : Except PyErr Bool :=
  is_ancestor (gitMergeBaseIsAncestor c1.repo c2.hash c1.hash)

/-- `GitCommit.__lt__`: `self <= rev2 and not self == rev2`, with a raising
`__le__` propagating. -/
def GitCommitRef.lt (c1 c2 : GitCommitRef) : Except PyErr Bool :=
  match GitCommitRef.le c1 c2 with
  | .error e => .error e
  | .ok b => .ok (b && !(GitCommitRef.eq c1 c2))

/-- `GitCommit.__gt__`: `self >= rev2 and not self == rev2`. -/
def GitCommitRef.gt (c1 c2 : GitCommitRef) : Except PyErr Bool :=
  match GitCommitRef.ge c1 c2 with
  | .error e => .error e
  | .ok b => .ok (b && !(GitCommitRef.eq c1 c2))

/-! ## git.py: revision cache (`GitRepository.get_rev`, `get_common_ancestor`)

The repository's mutable `rev_cache` dictionary becomes explicit state.
`GitCommit.__init__` runs `git rev-parse` and `git cat-file commit` and
parses the description; those two subprocess outputs are oracle functions,
and Python object identity is modelled by a fresh-id counter: every
`GitCommit(...)` construction consumes one id and bumps a fetch counter.
-/

/-- Oracle for the git subprocess outputs consumed by commit construction
and the merge-base query (each already stripped by `GitRepository.cmd`). -/
structure GitEnv : Type where
  revParse : String → String
  catFileCommit : String → String
  mergeBase : String → String → String

/-- A constructed `GitCommit` object: its Python object identity plus the
fields `__init__` derives. -/
structure GitCommitObj : Type where
  objId : Nat
  hash : String
  tree : String
  parents : List String
  summary : String
  deriving DecidableEq, Repr

/-- The mutable part of a `GitRepository`: the `rev_cache` dictionary,
the next fresh object identity, and how many commit constructions
(expensive fetch-and-parse resolutions) have happened. -/
structure RepoState : Type where
  rev_cache : List (String × GitCommitObj)
  nextObjId : Nat
  fetchCount : Nat
  deriving DecidableEq, Repr

/-- `GitCommit(repo, name)` (src/git.py lines 112-124): resolve the name to
a hash with `rev-parse`, fetch and strip the description with `cat-file`,
and parse it; allocate a fresh object identity and count one fetch. -/
def mkGitCommit (env : GitEnv) (st : RepoState) (name : String) :
    Except CommitError (GitCommitObj × RepoState) :=
  match parse_commit (pyStrip (env.catFileCommit (env.revParse name))) with
  | .error e => .error e
  | .ok info =>
    .ok (⟨st.nextObjId, env.revParse name, info.tree, info.parents, info.summary⟩,
         { st with nextObjId := st.nextObjId + 1, fetchCount := st.fetchCount + 1 })

/-- `GitRepository.get_rev` (src/git.py lines 51-55): construct and cache a
commit on the first resolution of a specifier, return the cached object on
every later one. -/
def get_rev (env : GitEnv) (st : RepoState) (name : String) :
    Except CommitError (GitCommitObj × RepoState) :=
  match dictGet? name st.rev_cache with
  | some c => .ok (c, st)
  | none =>
    match mkGitCommit env st name with
    | .error e => .error e
    | .ok (c, st') => .ok (c, { st' with rev_cache := dictInsert st'.rev_cache name c })

/-- `GitRepository.get_common_ancestor` (src/git.py lines 71-72): run
`git merge-base` and wrap the answer in a fresh `GitCommit`, without going
through `get_rev` or the cache. -/
def get_common_ancestor (env : GitEnv) (st : RepoState) (rev1 rev2 : String) :
    Except CommitError (GitCommitObj × RepoState) :=
  mkGitCommit env st (env.mergeBase rev1 rev2)

/-! ## update.py: configuration loading (`load_repositories`)

Each non-blank line of the `sourcemap` file, after comment removal, is
split as `name vcs config`; an unknown VCS kind is a `KeyError` on the
`vcs_updaters` dictionary, and a line with fewer than three fields is a
`ValueError` from tuple unpacking. Both propagate out of the loader.
-/

/-- Errors that abort `load_repositories`. -/
inductive LoadError : Type
  | valueErrorUnpack
  | keyErrorUnknownVcs (vcs : String)
  deriving DecidableEq, Repr

/-- The `vcs_updaters` dictionary's keys (src/update.py lines 41-43): only
`git` is known. -/
def vcs_kinds : List String := ["git"]

/-- One configured updater: the entry's VCS kind together with the
`configure(path, config)` arguments. -/
structure UpdaterCfg : Type where
  vcs : String
  path : String
  source : String
  deriving DecidableEq, Repr

/-- Python `os.path.join(a, b)` as used here: an absolute second component
replaces the first, otherwise the two are joined with a separator. -/
def pyJoin (a b : String) : String :=
  if b.data.head? = some '/' then b
  else if a.data.getLast? = some '/' then a ++ b
  else a ++ "/" ++ b

/-- The per-line normalization of `load_repositories`: strip, drop an
inline `#` comment, strip again. -/
def processLine (l : String) : String :=
  pyStrip (stripComment (pyStrip l))

/-- `load_repositories` (src/update.py lines 49-75), reduced to its parsing
loop: the configuration text arrives as a list of lines, and the two
environment-derived paths are parameters. Blank (or comment-only) lines are
skipped; each parsed entry overwrites any earlier entry of the same name in
the dictionary. -/
def load_repositories (sources_path : String) :
    List String → List (String × UpdaterCfg) →
    Except LoadError (List (String × UpdaterCfg))
  | [], m => .ok m
  | l :: ls, m =>
    let line := processLine l
    if line = "" then load_repositories sources_path ls m
    else
      match split2 line with
      | [name, vcs, config] =>
        if vcs_kinds.contains vcs then
          load_repositories sources_path ls
            (dictInsert m name ⟨vcs, pyJoin sources_path name, config⟩)
        else .error (.keyErrorUnknownVcs vcs)
      | _ => .error .valueErrorUnpack

/-- The entry a single configuration line contributes when loading
succeeds: `none` for blank, comment-only, malformed or unknown-VCS lines. -/
def lineEntryCfg (sources_path : String) (l : String) : Option (String × UpdaterCfg) :=
  let line := processLine l
  if line = "" then none
  else
    match split2 line with
    | [name, vcs, config] =>
      if vcs_kinds.contains vcs then
        some (name, ⟨vcs, pyJoin sources_path name, config⟩)
      else none
    | _ => none

/-- Whether a configuration line names an unknown VCS kind (a well-formed
three-field line whose second field is not a key of `vcs_updaters`). -/
def lineVcsUnknown (l : String) : Bool :=
  let line := processLine l
  if line = "" then false
  else
    match split2 line with
    | [_, vcs, _] => !(vcs_kinds.contains vcs)
    | _ => false

/-- Last binding for a name among a list of parsed entries. -/
def lastWith (name : String) : List (String × UpdaterCfg) → Option UpdaterCfg
  | [] => none
  | p :: rest =>
    match lastWith name rest with
    | some c => some c
    | none => if p.1 = name then some p.2 else none

/-! ## update.py: the orchestrator loop (`do_updates`)

The loop inspects `os.path.isdir` for each entry, calls `update_repo` or
`init_repo` under a bare `except:` that swallows any failure, and finally
runs the OpenGrok indexing trigger under the same policy. The filesystem is
an oracle from paths to what is there, and the updaters' and indexer's side
effects are oracles returning either success or a raised error.
-/

/-- What the filesystem holds at a path: nothing, a non-directory entry, or
a directory. `os.path.isdir` is true exactly for the last. -/
inductive FileKind : Type
  | absent
  | file
  | dir
  deriving DecidableEq, Repr

/-- Which step the loop ran for one entry. -/
inductive Action : Type
  | update
  | init
  deriving DecidableEq, Repr

/-- Observable history of one orchestrator run: one attempt per tracked
repository (with the step taken and whether it succeeded) and one indexing
run. -/
inductive Event : Type
  | attempt (name : String) (act : Action) (ok : Bool)
  | indexRun (ok : Bool)
  deriving DecidableEq, Repr

/-- Oracle for the side effects of `update_repo` and `init_repo` on one
configured entry: either the step returns or it raises. -/
structure UpdaterBehavior : Type where
  update_repo : UpdaterCfg → Except PyErr Unit
  init_repo : UpdaterCfg → Except PyErr Unit

/-- Whether a step's result was a normal return. -/
def okOf : Except PyErr Unit → Bool
  | .ok _ => true
  | .error _ => false

/-- One iteration of the orchestrator loop (src/update.py lines 89-111):
`update_repo` when the entry's path is a directory, `init_repo` otherwise;
the bare `except:` turns a raised error into a reported failure. -/
def runEntry (fs : String → FileKind) (beh : UpdaterBehavior)
    (e : String × UpdaterCfg) : Event :=
  if fs e.2.path = .dir then .attempt e.1 .update (okOf (beh.update_repo e.2))
  else .attempt e.1 .init (okOf (beh.init_repo e.2))

/-- The orchestrator loop plus the indexing trigger (src/update.py lines
88-123): every loaded entry is attempted in order, then OpenGrok runs once,
also behind a swallowing `except:`. -/
def do_updates_loop (fs : String → FileKind) (beh : UpdaterBehavior)
    (idx : Except PyErr Unit) (m : List (String × UpdaterCfg)) : List Event :=
  m.map (runEntry fs beh) ++ [.indexRun (okOf idx)]

/-- `do_updates` (src/update.py lines 81-126): load the configuration —
whose failure propagates and aborts the run — then run the loop and the
indexing trigger. -/
def do_updates (fs : String → FileKind) (beh : UpdaterBehavior)
    (idx : Except PyErr Unit) (sources_path : String) (configLines : List String) :
    Except LoadError (List Event) :=
  match load_repositories sources_path configLines [] with
  | .error e => .error e
  | .ok m => .ok (do_updates_loop fs beh idx m)

/-! ## Supporting lemmas -/

theorem isAncestorIn_refl (d : Dag) (x : String) : isAncestorIn d x x = true := by
  simp [isAncestorIn, ancestorFuel]

/-! ## Claims about `is_ancestor` and the comparison operators -/

/-- C2: `is_ancestor(X, Y)` returns true when X is an ancestor of Y in the
repository's history (equality included, so `is_ancestor(X, X)` is true),
returns false when the tool exits with the reserved code 1, and re-raises
any tool failure with a different exit code. -/
theorem is_ancestor_spec (d : Dag) (x y : String) :
    is_ancestor (gitMergeBaseIsAncestor d x x) = .ok true
    ∧ (isAncestorIn d x y = true →
        is_ancestor (gitMergeBaseIsAncestor d x y) = .ok true)
    ∧ (isAncestorIn d x y = false →
        is_ancestor (gitMergeBaseIsAncestor d x y) = .ok false)
    ∧ (∀ rc out, rc ≠ 1 →
        is_ancestor (.error (.calledProcessError rc out)) =
          .error (.calledProcessError rc out)) := by
  refine ⟨?_, ?_, ?_, ?_⟩
  · simp [gitMergeBaseIsAncestor, isAncestorIn_refl, is_ancestor]
  · intro h
    simp [gitMergeBaseIsAncestor, h, is_ancestor]
  · intro h
    simp [gitMergeBaseIsAncestor, h, is_ancestor]
  · intro rc out h
    simp [is_ancestor, h]

/-- Witness for C2 on a two-commit history where `a` is the parent of `b`. -/
theorem is_ancestor_spec_witness :
    is_ancestor (gitMergeBaseIsAncestor [("b", ["a"]), ("a", [])] "a" "a") = .ok true
    ∧ is_ancestor (gitMergeBaseIsAncestor [("b", ["a"]), ("a", [])] "a" "b") = .ok true
    ∧ is_ancestor (gitMergeBaseIsAncestor [("b", ["a"]), ("a", [])] "b" "a") = .ok false
    ∧ is_ancestor (.error (.calledProcessError 128 "fatal")) =
        .error (.calledProcessError 128 "fatal") := by
  refine ⟨(is_ancestor_spec [("b", ["a"]), ("a", [])] "a" "b").1,
    (is_ancestor_spec [("b", ["a"]), ("a", [])] "a" "b").2.1 (by rfl),
    (is_ancestor_spec [("b", ["a"]), ("a", [])] "b" "a").2.2.1 (by rfl),
    (is_ancestor_spec [("b", ["a"]), ("a", [])] "a" "b").2.2.2 128 "fatal" (by decide)⟩

/-- C3: the comparison operators form a reflexive `≤` and an irreflexive
`<`, and `<` is exactly `≤` together with hash inequality. -/
theorem commit_order_spec (c c1 c2 : GitCommitRef) :
    GitCommitRef.le c c = .ok true
    ∧ GitCommitRef.lt c c = .ok false
    ∧ (GitCommitRef.lt c1 c2 = .ok true ↔
        (GitCommitRef.le c1 c2 = .ok true ∧ GitCommitRef.eq c1 c2 = false)) := by
  refine ⟨?_, ?_, ?_⟩
  · simp [GitCommitRef.le, gitMergeBaseIsAncestor, isAncestorIn_refl, is_ancestor]
  · simp [GitCommitRef.lt, GitCommitRef.le, GitCommitRef.eq,
      gitMergeBaseIsAncestor, isAncestorIn_refl, is_ancestor]
  · unfold GitCommitRef.lt GitCommitRef.le
    cases h : is_ancestor (gitMergeBaseIsAncestor c1.repo c1.hash c2.hash) with
    | ok b =>
      cases b <;> cases he : GitCommitRef.eq c1 c2 <;> simp
    | error e =>
      unfold is_ancestor gitMergeBaseIsAncestor at h
      by_cases hb : isAncestorIn c1.repo c1.hash c2.hash <;> simp [hb] at h

/-- C8: the operators consult only the two hash strings and the left
operand's repository: equal hashes compare equal even across distinct
repositories, and replacing the right operand's repository never changes
any operator's result. -/
theorem commit_ops_hash_only (r1 r2 r2' : Dag) (h h1 h2 : String) :
    GitCommitRef.eq ⟨r1, h⟩ ⟨r2, h⟩ = true
    ∧ GitCommitRef.eq ⟨r1, h1⟩ ⟨r2, h2⟩ = (h1 == h2)
    ∧ GitCommitRef.le ⟨r1, h1⟩ ⟨r2, h2⟩ = GitCommitRef.le ⟨r1, h1⟩ ⟨r2', h2⟩
    ∧ GitCommitRef.ge ⟨r1, h1⟩ ⟨r2, h2⟩ = GitCommitRef.ge ⟨r1, h1⟩ ⟨r2', h2⟩
    ∧ GitCommitRef.lt ⟨r1, h1⟩ ⟨r2, h2⟩ = GitCommitRef.lt ⟨r1, h1⟩ ⟨r2', h2⟩
    ∧ GitCommitRef.gt ⟨r1, h1⟩ ⟨r2, h2⟩ = GitCommitRef.gt ⟨r1, h1⟩ ⟨r2', h2⟩ := by
  refine ⟨?_, rfl, rfl, rfl, rfl, rfl⟩
  simp [GitCommitRef.eq]

/-! ## Claims about the revision cache -/

theorem dictGet?_insert_self {α : Type} (m : List (String × α)) (k : String) (v : α) :
    dictGet? k (dictInsert m k v) = some v := by
  induction m with
  | nil => simp [dictInsert, dictGet?]
  | cons p rest ih =>
    by_cases h : p.1 == k
    · simp [dictInsert, h, dictGet?]
    · simp only [dictInsert, h, Bool.false_eq_true, if_false, dictGet?, ih]

theorem dictGet?_insert_ne {α : Type} (m : List (String × α)) (k k' : String) (v : α)
    (h : k' ≠ k) : dictGet? k' (dictInsert m k v) = dictGet? k' m := by
  have hkk : (k == k') = false := beq_eq_false_iff_ne.mpr (Ne.symm h)
  induction m with
  | nil => simp [dictInsert, dictGet?, hkk]
  | cons p rest ih =>
    by_cases hp : p.1 == k
    · have hpk : p.1 = k := by simpa using hp
      simp [dictInsert, hp, dictGet?, hkk, hpk]
    · simp only [dictInsert, hp, Bool.false_eq_true, if_false, dictGet?, ih]

/-- C5: `get_rev` memoizes by exact specifier string. Resolving the same
specifier a second time returns the identical cached object and leaves the
state (including the fetch counter) untouched, while two distinct
specifiers that resolve to the same hash produce two commits equal in hash
but distinct in object identity, cached under two separate entries. -/
theorem get_rev_memoized (env : GitEnv) :
    (∀ st n c st1, get_rev env st n = .ok (c, st1) →
      get_rev env st1 n = .ok (c, st1))
    ∧ (∀ st n1 n2 c1 c2 st1 st2,
        n1 ≠ n2 →
        env.revParse n1 = env.revParse n2 →
        dictGet? n1 st.rev_cache = none →
        dictGet? n2 st.rev_cache = none →
        get_rev env st n1 = .ok (c1, st1) →
        get_rev env st1 n2 = .ok (c2, st2) →
        c1.hash = c2.hash ∧ c1.objId ≠ c2.objId ∧
        dictGet? n1 st2.rev_cache = some c1 ∧ dictGet? n2 st2.rev_cache = some c2) := by
  constructor
  · intro st n c st1 h
    unfold get_rev at h ⊢
    cases hc : dictGet? n st.rev_cache with
    | some c' =>
      rw [hc] at h
      injection h with h'
      injection h' with hc' hst
      subst hc'
      subst hst
      rw [hc]
    | none =>
      rw [hc] at h
      cases hm : mkGitCommit env st n with
      | error e => rw [hm] at h; exact absurd h (by simp)
      | ok p =>
        rw [hm] at h
        injection h with h'
        injection h' with hc' hst
        subst hc'
        subst hst
        have : p.2.rev_cache = st.rev_cache := by
          unfold mkGitCommit at hm
          cases hp : parse_commit (pyStrip (env.catFileCommit (env.revParse n))) with
          | error e => rw [hp] at hm; exact absurd hm (by simp)
          | ok info =>
            rw [hp] at hm
            injection hm with hm'
            rw [← hm']
        simp [dictGet?_insert_self]
  · intro st n1 n2 c1 c2 st1 st2 hne hhash hm1 hm2 h1 h2
    unfold get_rev at h1 h2
    rw [hm1] at h1
    unfold mkGitCommit at h1
    cases hp : parse_commit (pyStrip (env.catFileCommit (env.revParse n1))) with
    | error e => rw [hp] at h1; exact absurd h1 (by simp)
    | ok info =>
      rw [hp] at h1
      simp only [Except.ok.injEq, Prod.mk.injEq] at h1
      obtain ⟨hc1, hst1⟩ := h1
      have hcache1 : st1.rev_cache =
          dictInsert st.rev_cache n1 c1 := by rw [← hst1, ← hc1]
      have hget2 : dictGet? n2 st1.rev_cache = none := by
        rw [hcache1, dictGet?_insert_ne _ _ _ _ (Ne.symm hne), hm2]
      rw [hget2] at h2
      unfold mkGitCommit at h2
      rw [← hhash, hp] at h2
      simp only [Except.ok.injEq, Prod.mk.injEq] at h2
      obtain ⟨hc2, hst2⟩ := h2
      have hids : st1.nextObjId = st.nextObjId + 1 := by rw [← hst1]
      refine ⟨?_, ?_, ?_, ?_⟩
      · rw [← hc1, ← hc2, hhash]
      · rw [← hc1, ← hc2]
        simp [hids]
      · rw [← hst2]
        simp only []
        rw [dictGet?_insert_ne _ _ _ _ hne, hcache1, dictGet?_insert_self]
      · rw [← hst2]
        simp only []
        rw [dictGet?_insert_self, hc2]

/-- Witness for C5: a fresh repository state, two specifiers `a` and `b`
both resolving to hash `h`. -/
theorem get_rev_memoized_witness :
    get_rev ⟨fun _ => "h", fun _ => "tree t\n\nm", fun _ _ => "mb"⟩
        ⟨[("a", ⟨0, "h", "t", [], "m"⟩)], 1, 1⟩ "a" =
      .ok (⟨0, "h", "t", [], "m"⟩, ⟨[("a", ⟨0, "h", "t", [], "m"⟩)], 1, 1⟩)
    ∧ (0 : Nat) ≠ 1 := by
  constructor
  · exact (get_rev_memoized ⟨fun _ => "h", fun _ => "tree t\n\nm", fun _ _ => "mb"⟩).1
      ⟨[], 0, 0⟩ "a" ⟨0, "h", "t", [], "m"⟩ ⟨[("a", ⟨0, "h", "t", [], "m"⟩)], 1, 1⟩ (by rfl)
  · have h := (get_rev_memoized ⟨fun _ => "h", fun _ => "tree t\n\nm", fun _ _ => "mb"⟩).2
      ⟨[], 0, 0⟩ "a" "b" ⟨0, "h", "t", [], "m"⟩ ⟨1, "h", "t", [], "m"⟩
      ⟨[("a", ⟨0, "h", "t", [], "m"⟩)], 1, 1⟩
      ⟨[("a", ⟨0, "h", "t", [], "m"⟩), ("b", ⟨1, "h", "t", [], "m"⟩)], 2, 2⟩
      (by decide) rfl rfl rfl (by rfl) (by rfl)
    exact h.2.1

/-- C9: `get_common_ancestor` builds a fresh commit without touching the
revision cache, so a later `get_rev` of the merge-base's hash misses the
cache, performs one more fetch, and returns a different object. -/
theorem get_common_ancestor_frame (env : GitEnv) (st : RepoState) (r1 r2 : String)
    (a : GitCommitObj) (st' : RepoState) (c : GitCommitObj) (st'' : RepoState)
    (h1 : get_common_ancestor env st r1 r2 = .ok (a, st'))
    (h2 : dictGet? a.hash st.rev_cache = none)
    (h3 : get_rev env st' a.hash = .ok (c, st'')) :
    st'.rev_cache = st.rev_cache
    ∧ st''.fetchCount = st'.fetchCount + 1
    ∧ c.objId ≠ a.objId
    ∧ c ≠ a := by
  unfold get_common_ancestor mkGitCommit at h1
  cases hp : parse_commit (pyStrip (env.catFileCommit (env.revParse (env.mergeBase r1 r2)))) with
  | error e => rw [hp] at h1; exact absurd h1 (by simp)
  | ok info =>
    rw [hp] at h1
    simp only [Except.ok.injEq, Prod.mk.injEq] at h1
    obtain ⟨ha, hst'⟩ := h1
    have hframe : st'.rev_cache = st.rev_cache := by rw [← hst']
    have hget : dictGet? a.hash st'.rev_cache = none := by rw [hframe]; exact h2
    unfold get_rev at h3
    rw [hget] at h3
    unfold mkGitCommit at h3
    cases hp2 : parse_commit (pyStrip (env.catFileCommit (env.revParse a.hash))) with
    | error e => rw [hp2] at h3; exact absurd h3 (by simp)
    | ok info2 =>
      rw [hp2] at h3
      simp only [Except.ok.injEq, Prod.mk.injEq] at h3
      obtain ⟨hc, hst''⟩ := h3
      have haid : a.objId = st.nextObjId := by rw [← ha]
      have hcid : c.objId = st'.nextObjId := by rw [← hc]
      have hsucc : st'.nextObjId = st.nextObjId + 1 := by rw [← hst']
      have hne : c.objId ≠ a.objId := by
        rw [haid, hcid, hsucc]
        simp
      refine ⟨hframe, ?_, hne, ?_⟩
      · rw [← hst'']
      · intro hca
        exact hne (by rw [hca])

/-- Witness for C9: merge-base `m` resolved in an empty-cache repository. -/
theorem get_common_ancestor_frame_witness :
    ((⟨[], 1, 1⟩ : RepoState).rev_cache = ([] : List (String × GitCommitObj)))
    ∧ (2 : Nat) = 1 + 1
    ∧ (1 : Nat) ≠ 0
    ∧ (⟨1, "m", "t", [], "m"⟩ : GitCommitObj) ≠ ⟨0, "m", "t", [], "m"⟩ := by
  have h := get_common_ancestor_frame
    ⟨fun s => s, fun _ => "tree t\n\nm", fun _ _ => "m"⟩
    ⟨[], 0, 0⟩ "x" "y" ⟨0, "m", "t", [], "m"⟩ ⟨[], 1, 1⟩
    ⟨1, "m", "t", [], "m"⟩ ⟨[("m", ⟨1, "m", "t", [], "m"⟩)], 2, 2⟩
    (by rfl) (by rfl) (by rfl)
  exact h

/-! ## Claims about the orchestrator loop -/

/-- Test for an attempt event carrying a given repository name. -/
def isAttemptNamed (n : String) : Event → Bool
  | .attempt m _ _ => m == n
  | .indexRun _ => false

/-- Test for the indexing-trigger event. -/
def isIndexEvent : Event → Bool
  | .attempt _ _ _ => false
  | .indexRun _ => true

theorem countP_map_runEntry (fs : String → FileKind) (beh : UpdaterBehavior)
    (n : String) (m : List (String × UpdaterCfg)) :
    (m.map (runEntry fs beh)).countP (isAttemptNamed n) =
      m.countP (fun q => q.1 == n) := by
  induction m with
  | nil => rfl
  | cons q rest ih =>
    by_cases hfs : fs q.2.path = .dir <;>
      simp [runEntry, hfs, isAttemptNamed, List.countP_cons, ih]

theorem countP_name_nodup (m : List (String × UpdaterCfg))
    (hnd : (m.map Prod.fst).Nodup) (p : String × UpdaterCfg) (hp : p ∈ m) :
    m.countP (fun q => q.1 == p.1) = 1 := by
  induction m with
  | nil => cases hp
  | cons q rest ih =>
    simp only [List.map_cons, List.nodup_cons] at hnd
    rcases List.mem_cons.mp hp with hq | hrest
    · subst hq
      have hz : rest.countP (fun q => q.1 == p.1) = 0 := by
        rw [List.countP_eq_zero]
        intro r hr hbeq
        exact hnd.1 (List.mem_map.mpr ⟨r, hr, (by simpa using hbeq : r.1 = p.1)⟩)
      simp [List.countP_cons, hz]
    · have h1 : rest.countP (fun q => q.1 == p.1) = 1 := ih hnd.2 hrest
      have hq1 : (q.1 == p.1) = false := by
        refine beq_eq_false_iff_ne.mpr fun he => hnd.1 ?_
        exact he ▸ List.mem_map.mpr ⟨p, hrest, rfl⟩
      simp [List.countP_cons, hq1, h1]

theorem map_runEntry_no_index (fs : String → FileKind) (beh : UpdaterBehavior)
    (m : List (String × UpdaterCfg)) :
    (m.map (runEntry fs beh)).countP isIndexEvent = 0 := by
  rw [List.countP_eq_zero]
  intro e he
  obtain ⟨q, _, hq⟩ := List.mem_map.mp he
  by_cases hfs : fs q.2.path = .dir <;>
    simp [runEntry, hfs] at hq <;> simp [← hq, isIndexEvent]

/-- C1: whatever each entry's step does — succeed or raise — the loop
attempts every entry of the map exactly once and the indexing trigger runs
exactly once, after all the attempts. -/
theorem do_updates_isolation (fs : String → FileKind) (beh : UpdaterBehavior)
    (idx : Except PyErr Unit) (m : List (String × UpdaterCfg))
    (hnd : (m.map Prod.fst).Nodup) :
    (∀ p ∈ m, (do_updates_loop fs beh idx m).countP (isAttemptNamed p.1) = 1)
    ∧ (do_updates_loop fs beh idx m).countP isIndexEvent = 1
    ∧ (do_updates_loop fs beh idx m).getLast? = some (.indexRun (okOf idx))
    ∧ (do_updates_loop fs beh idx m).length = m.length + 1 := by
  refine ⟨?_, ?_, ?_, ?_⟩
  · intro p hp
    unfold do_updates_loop
    rw [List.countP_append, countP_map_runEntry, countP_name_nodup m hnd p hp]
    simp [List.countP_cons, isAttemptNamed]
  · unfold do_updates_loop
    rw [List.countP_append, map_runEntry_no_index]
    simp [List.countP_cons, isIndexEvent]
  · exact List.getLast?_concat _
  · simp [do_updates_loop]

/-- Witness for C1: three tracked repositories, the second one's update
step raises a `ProcessInvocationError`; all three are attempted and the
index still runs once, last. -/
theorem do_updates_isolation_witness :
    (∀ p ∈ [("r1", (⟨"git", "/s/r1", "u1"⟩ : UpdaterCfg)),
            ("r2", ⟨"git", "/s/r2", "u2"⟩), ("r3", ⟨"git", "/s/r3", "u3"⟩)],
      (do_updates_loop (fun _ => .dir)
          ⟨fun cfg => if cfg.path = "/s/r2" then
              .error (.calledProcessError 1 "boom") else .ok (), fun _ => .ok ()⟩
          (.ok ())
          [("r1", ⟨"git", "/s/r1", "u1"⟩), ("r2", ⟨"git", "/s/r2", "u2"⟩),
           ("r3", ⟨"git", "/s/r3", "u3"⟩)]).countP (isAttemptNamed p.1) = 1)
    ∧ (do_updates_loop (fun _ => .dir)
          ⟨fun cfg => if cfg.path = "/s/r2" then
              .error (.calledProcessError 1 "boom") else .ok (), fun _ => .ok ()⟩
          (.ok ())
          [("r1", ⟨"git", "/s/r1", "u1"⟩), ("r2", ⟨"git", "/s/r2", "u2"⟩),
           ("r3", ⟨"git", "/s/r3", "u3"⟩)]).countP isIndexEvent = 1 := by
  have h := do_updates_isolation (fun _ => .dir)
    ⟨fun cfg => if cfg.path = "/s/r2" then
        .error (.calledProcessError 1 "boom") else .ok (), fun _ => .ok ()⟩
    (.ok ())
    [("r1", ⟨"git", "/s/r1", "u1"⟩), ("r2", ⟨"git", "/s/r2", "u2"⟩),
     ("r3", ⟨"git", "/s/r3", "u3"⟩)] (by decide)
  exact ⟨h.1, h.2.1⟩

/-- C6 counterexample: a tracked repository whose local path exists but as
a regular file, not a directory. The path exists, yet the loop calls
`init_repo` (a clone), not `update_repo`, because the source tests
`os.path.isdir`, not existence. -/
theorem runEntry_file_counterexample :
    (fun _ => FileKind.file) "/s/r" ≠ FileKind.absent
    ∧ runEntry (fun _ => FileKind.file) ⟨fun _ => .ok (), fun _ => .ok ()⟩
        ("r", ⟨"git", "/s/r", "u"⟩) = .attempt "r" .init true := by
  constructor
  · decide
  · rfl

/-- C6 amended: the loop calls `update_repo` exactly when the entry's local
path is a directory, and `init_repo` otherwise — including when the path
exists but is not a directory. A nonexistent path therefore always goes to
`init_repo`, and a present mirror directory always goes to `update_repo`. -/
theorem runEntry_dispatch (fs : String → FileKind) (beh : UpdaterBehavior)
    (e : String × UpdaterCfg) :
    (fs e.2.path = .dir →
      runEntry fs beh e = .attempt e.1 .update (okOf (beh.update_repo e.2)))
    ∧ (fs e.2.path ≠ .dir →
      runEntry fs beh e = .attempt e.1 .init (okOf (beh.init_repo e.2))) := by
  constructor
  · intro h
    simp [runEntry, h]
  · intro h
    simp [runEntry, h]

/-- Witness for the amended C6: an absent path goes to `init_repo`, a
directory goes to `update_repo`. -/
theorem runEntry_dispatch_witness :
    runEntry (fun _ => FileKind.dir) ⟨fun _ => .ok (), fun _ => .ok ()⟩
        ("r", ⟨"git", "/s/r", "u"⟩) = .attempt "r" .update true
    ∧ runEntry (fun _ => FileKind.absent) ⟨fun _ => .ok (), fun _ => .ok ()⟩
        ("r", ⟨"git", "/s/r", "u"⟩) = .attempt "r" .init true := by
  exact ⟨(runEntry_dispatch (fun _ => FileKind.dir)
      ⟨fun _ => .ok (), fun _ => .ok ()⟩ ("r", ⟨"git", "/s/r", "u"⟩)).1 (by decide),
    (runEntry_dispatch (fun _ => FileKind.absent)
      ⟨fun _ => .ok (), fun _ => .ok ()⟩ ("r", ⟨"git", "/s/r", "u"⟩)).2 (by decide)⟩

theorem load_repositories_error_of_bad_line (sources_path : String) :
    ∀ (ls : List String) (m : List (String × UpdaterCfg)),
      (∃ l ∈ ls, lineVcsUnknown l = true) →
      ∃ e, load_repositories sources_path ls m = .error e := by
  intro ls
  induction ls with
  | nil => intro m h; obtain ⟨l, hl, _⟩ := h; cases hl
  | cons l rest ih =>
    intro m h
    obtain ⟨l', hl', hbad⟩ := h
    unfold load_repositories
    by_cases hblank : processLine l = ""
    · rw [if_pos hblank]
      rcases List.mem_cons.mp hl' with he | hrest
      · subst he
        unfold lineVcsUnknown at hbad
        rw [if_pos hblank] at hbad
        cases hbad
      · exact ih m ⟨l', hrest, hbad⟩
    · rw [if_neg hblank]
      cases hsp : split2 (processLine l) with
      | nil => exact ⟨.valueErrorUnpack, rfl⟩
      | cons a as =>
        cases as with
        | nil => exact ⟨.valueErrorUnpack, rfl⟩
        | cons b bs =>
          cases bs with
          | nil => exact ⟨.valueErrorUnpack, rfl⟩
          | cons c cs =>
            cases cs with
            | nil =>
              by_cases hv : vcs_kinds.contains b
              · simp only [hv, if_true]
                rcases List.mem_cons.mp hl' with he | hrest
                · subst he
                  unfold lineVcsUnknown at hbad
                  rw [if_neg hblank, hsp] at hbad
                  dsimp only at hbad
                  rw [hv] at hbad
                  exact absurd hbad (by decide)
                · exact ih _ ⟨l', hrest, hbad⟩
              · have hv' : vcs_kinds.contains b = false := by
                  cases hcb : vcs_kinds.contains b
                  · rfl
                  · exact absurd hcb hv
                refine ⟨.keyErrorUnknownVcs b, ?_⟩
                dsimp only
                rw [hv']
                simp
            | cons d ds => exact ⟨.valueErrorUnpack, rfl⟩

/-- C7: a configuration line naming an unknown VCS kind makes the loader
raise (a `KeyError` on the updater dictionary, with no fallback), and since
`do_updates` loads before touching any repository, the whole run aborts
with no repository attempted and no indexing trigger. -/
theorem unknown_vcs_aborts_run (fs : String → FileKind) (beh : UpdaterBehavior)
    (idx : Except PyErr Unit) (sources_path : String) (configLines : List String)
    (hbad : ∃ l ∈ configLines, lineVcsUnknown l = true) :
    (∃ e, load_repositories sources_path configLines [] = .error e)
    ∧ ∀ evs, do_updates fs beh idx sources_path configLines ≠ .ok evs := by
  obtain ⟨e, he⟩ := load_repositories_error_of_bad_line sources_path configLines [] hbad
  refine ⟨⟨e, he⟩, ?_⟩
  intro evs hok
  unfold do_updates at hok
  rw [he] at hok
  cases hok

/-- Witness for C7: a two-line configuration whose second line names the
unknown kind `svn`. -/
theorem unknown_vcs_aborts_run_witness :
    (∃ e, load_repositories "/s" ["foo git u1", "bar svn u2"] [] = .error e)
    ∧ ∀ evs, do_updates (fun _ => FileKind.dir)
        ⟨fun _ => .ok (), fun _ => .ok ()⟩ (.ok ()) "/s"
        ["foo git u1", "bar svn u2"] ≠ .ok evs :=
  unknown_vcs_aborts_run (fun _ => FileKind.dir)
    ⟨fun _ => .ok (), fun _ => .ok ()⟩ (.ok ()) "/s"
    ["foo git u1", "bar svn u2"]
    ⟨"bar svn u2", by simp, by rfl⟩

/-! ## Lemmas about stripping and comment removal -/

theorem length_dropWhile_le {α : Type} (p : α → Bool) (l : List α) :
    (l.dropWhile p).length ≤ l.length := by
  induction l with
  | nil => simp
  | cons a l ih =>
    by_cases ha : p a
    · rw [List.dropWhile_cons, if_pos ha]
      exact Nat.le_succ_of_le ih
    · rw [List.dropWhile_cons, if_neg ha]

theorem dropWhile_append_cons {α : Type} (p : α → Bool) (xs ys : List α) (y : α)
    (hy : p y = false) :
    (xs ++ y :: ys).dropWhile p = xs.dropWhile p ++ y :: ys := by
  induction xs with
  | nil => simp [List.dropWhile_cons, hy]
  | cons a xs ih =>
    by_cases ha : p a <;> simp [List.dropWhile_cons, ha, ih]

theorem takeWhile_all {α : Type} (q : α → Bool) (xs : List α)
    (h : ∀ x ∈ xs, q x = true) : xs.takeWhile q = xs := by
  induction xs with
  | nil => rfl
  | cons a xs ih =>
    rw [List.takeWhile_cons, if_pos (h a (List.mem_cons_self a xs))]
    rw [ih fun x hx => h x (List.mem_cons_of_mem a hx)]

theorem takeWhile_append_cons {α : Type} (q : α → Bool) (xs ys : List α) (y : α)
    (h : ∀ x ∈ xs, q x = true) (hy : q y = false) :
    (xs ++ y :: ys).takeWhile q = xs := by
  induction xs with
  | nil => simp [List.takeWhile_cons, hy]
  | cons a xs ih =>
    rw [List.cons_append, List.takeWhile_cons,
      if_pos (h a (List.mem_cons_self a xs)), ih fun x hx => h x (List.mem_cons_of_mem a hx)]

theorem dropWhile_idem {α : Type} (p : α → Bool) (l : List α) :
    (l.dropWhile p).dropWhile p = l.dropWhile p := by
  induction l with
  | nil => rfl
  | cons a l ih =>
    by_cases ha : p a <;> simp [List.dropWhile_cons, ha, ih]

/-- Right-strip: drop the trailing elements satisfying `p`. -/
def rstrip {α : Type} (p : α → Bool) (l : List α) : List α :=
  (l.reverse.dropWhile p).reverse

theorem pyStripChars_eq (l : List Char) :
    pyStripChars l = rstrip pyWs (l.dropWhile pyWs) := rfl

theorem rstrip_append_cons {α : Type} (p : α → Bool) (xs ys : List α) (y : α)
    (hy : p y = false) :
    rstrip p (xs ++ y :: ys) = xs ++ y :: rstrip p ys := by
  unfold rstrip
  rw [List.reverse_append, List.reverse_cons, List.append_assoc, List.singleton_append,
    dropWhile_append_cons p ys.reverse xs.reverse y hy, List.reverse_append,
    List.reverse_cons, List.reverse_reverse]
  rw [List.append_assoc, List.singleton_append]

theorem rstrip_prefix {α : Type} (p : α → Bool) (l : List α) :
    ∃ t, l = rstrip p l ++ t := by
  refine ⟨(l.reverse.takeWhile p).reverse, ?_⟩
  conv_lhs => rw [← List.reverse_reverse l, ← List.takeWhile_append_dropWhile p l.reverse]
  rw [List.reverse_append]
  rfl

theorem dropWhile_eq_self_prefix {α : Type} (p : α → Bool) (P T : List α)
    (h : (P ++ T).dropWhile p = P ++ T) : P.dropWhile p = P := by
  cases P with
  | nil => rfl
  | cons a P' =>
    rw [List.cons_append, List.dropWhile_cons] at h
    by_cases ha : p a
    · rw [if_pos ha] at h
      have hle := length_dropWhile_le p (P' ++ T)
      rw [h] at hle
      simp at hle
    · rw [List.dropWhile_cons, if_neg ha]

theorem rstrip_idem {α : Type} (p : α → Bool) (l : List α) :
    rstrip p (rstrip p l) = rstrip p l := by
  unfold rstrip
  rw [List.reverse_reverse, dropWhile_idem]

theorem mem_of_mem_dropWhile {α : Type} (p : α → Bool) {x : α} {l : List α}
    (h : x ∈ l.dropWhile p) : x ∈ l :=
  (List.dropWhile_sublist p).subset h

theorem mem_of_mem_rstrip {α : Type} (p : α → Bool) {x : α} {l : List α}
    (h : x ∈ rstrip p l) : x ∈ l := by
  obtain ⟨t, ht⟩ := rstrip_prefix p l
  rw [ht]
  exact List.mem_append_left t h

theorem processLine_comment (l cmt : String) (h : '#' ∉ l.data) :
    processLine (l ++ "#" ++ cmt) = processLine l := by
  have hpw : pyWs '#' = false := by decide
  have hdata : (l ++ "#" ++ cmt).data = l.data ++ '#' :: cmt.data := by
    rw [String.data_append, String.data_append, List.append_assoc]
    rfl
  have hBsub : '#' ∉ l.data.dropWhile pyWs := fun hx => h (mem_of_mem_dropWhile pyWs hx)
  have hBall : ∀ x ∈ l.data.dropWhile pyWs, (decide (x ≠ '#')) = true := by
    intro x hx
    simp only [decide_eq_true_eq]
    exact fun he => hBsub (he ▸ hx)
  have hBl : (l.data.dropWhile pyWs).dropWhile pyWs = l.data.dropWhile pyWs :=
    dropWhile_idem pyWs l.data
  have hRB : '#' ∉ rstrip pyWs (l.data.dropWhile pyWs) :=
    fun hx => hBsub (mem_of_mem_rstrip pyWs hx)
  have hRBall : ∀ x ∈ rstrip pyWs (l.data.dropWhile pyWs), (decide (x ≠ '#')) = true := by
    intro x hx
    simp only [decide_eq_true_eq]
    exact fun he => hRB (he ▸ hx)
  have hRBl : (rstrip pyWs (l.data.dropWhile pyWs)).dropWhile pyWs =
      rstrip pyWs (l.data.dropWhile pyWs) := by
    obtain ⟨t, ht⟩ := rstrip_prefix pyWs (l.data.dropWhile pyWs)
    refine dropWhile_eq_self_prefix pyWs _ t ?_
    rw [← ht]
    exact hBl
  show pyStrip (stripComment (pyStrip (l ++ "#" ++ cmt))) =
    pyStrip (stripComment (pyStrip l))
  unfold pyStrip stripComment
  congr 1
  show pyStripChars ((pyStripChars (l ++ "#" ++ cmt).data).takeWhile _) =
    pyStripChars ((pyStripChars l.data).takeWhile _)
  rw [hdata, pyStripChars_eq (l.data ++ '#' :: cmt.data),
    dropWhile_append_cons pyWs l.data cmt.data '#' hpw,
    rstrip_append_cons pyWs _ _ '#' hpw,
    takeWhile_append_cons _ _ _ '#' hBall (by decide)]
  rw [pyStripChars_eq l.data, takeWhile_all _ _ hRBall]
  rw [pyStripChars_eq (l.data.dropWhile pyWs), hBl,
    pyStripChars_eq (rstrip pyWs (l.data.dropWhile pyWs)), hRBl, rstrip_idem]

/-! ## Lemmas about the loaded repository map -/

theorem mem_keys_dictInsert {α : Type} (m : List (String × α)) (k x : String) (v : α) :
    x ∈ (dictInsert m k v).map Prod.fst ↔ x ∈ m.map Prod.fst ∨ x = k := by
  induction m with
  | nil => simp [dictInsert]
  | cons p rest ih =>
    by_cases hp : p.1 == k
    · have hpk : p.1 = k := by simpa using hp
      simp [dictInsert, hp, hpk]
      tauto
    · simp [dictInsert, hp, ih]
      tauto

theorem nodup_keys_dictInsert {α : Type} (m : List (String × α)) (k : String) (v : α)
    (h : (m.map Prod.fst).Nodup) : ((dictInsert m k v).map Prod.fst).Nodup := by
  induction m with
  | nil => simp [dictInsert]
  | cons p rest ih =>
    simp only [List.map_cons, List.nodup_cons] at h
    by_cases hp : p.1 == k
    · have hpk : p.1 = k := by simpa using hp
      simp only [dictInsert, hp, if_true, List.map_cons, List.nodup_cons]
      exact ⟨hpk ▸ h.1, h.2⟩
    · have hpk : p.1 ≠ k := by simpa using hp
      simp only [dictInsert, hp, Bool.false_eq_true, if_false, List.map_cons,
        List.nodup_cons]
      refine ⟨fun hc => ?_, ih h.2⟩
      rcases (mem_keys_dictInsert rest k p.1 v).mp hc with hm | he
      · exact h.1 hm
      · exact hpk he

theorem load_ok_nodup (sp : String) :
    ∀ (ls : List String) (m₀ m : List (String × UpdaterCfg)),
      load_repositories sp ls m₀ = .ok m →
      (m₀.map Prod.fst).Nodup → (m.map Prod.fst).Nodup := by
  intro ls
  induction ls with
  | nil =>
    intro m₀ m h hnd
    unfold load_repositories at h
    injection h with h'
    exact h' ▸ hnd
  | cons l rest ih =>
    intro m₀ m h hnd
    unfold load_repositories at h
    by_cases hblank : processLine l = ""
    · rw [if_pos hblank] at h
      exact ih m₀ m h hnd
    · rw [if_neg hblank] at h
      cases hsp : split2 (processLine l) with
      | nil => rw [hsp] at h; cases h
      | cons a as =>
        cases as with
        | nil => rw [hsp] at h; cases h
        | cons b bs =>
          cases bs with
          | nil => rw [hsp] at h; cases h
          | cons c cs =>
            cases cs with
            | nil =>
              rw [hsp] at h
              dsimp only at h
              by_cases hv : vcs_kinds.contains b = true
              · rw [if_pos hv] at h
                exact ih _ m h (nodup_keys_dictInsert m₀ a _ hnd)
              · rw [if_neg hv] at h
                cases h
            | cons d ds => rw [hsp] at h; cases h

theorem load_lookup_lastWith (sp : String) :
    ∀ (ls : List String) (m₀ m : List (String × UpdaterCfg)),
      load_repositories sp ls m₀ = .ok m →
      ∀ name, dictGet? name m =
        match lastWith name (ls.filterMap (lineEntryCfg sp)) with
        | some c => some c
        | none => dictGet? name m₀ := by
  intro ls
  induction ls with
  | nil =>
    intro m₀ m h name
    unfold load_repositories at h
    injection h with h'
    subst h'
    rfl
  | cons l rest ih =>
    intro m₀ m h name
    unfold load_repositories at h
    by_cases hblank : processLine l = ""
    · rw [if_pos hblank] at h
      have hnone : lineEntryCfg sp l = none := by
        unfold lineEntryCfg
        rw [if_pos hblank]
      rw [List.filterMap_cons_none hnone]
      exact ih m₀ m h name
    · rw [if_neg hblank] at h
      cases hsp : split2 (processLine l) with
      | nil => rw [hsp] at h; cases h
      | cons a as =>
        cases as with
        | nil => rw [hsp] at h; cases h
        | cons b bs =>
          cases bs with
          | nil => rw [hsp] at h; cases h
          | cons c cs =>
            cases cs with
            | nil =>
              rw [hsp] at h
              dsimp only at h
              by_cases hv : vcs_kinds.contains b = true
              · rw [if_pos hv] at h
                have hsome : lineEntryCfg sp l =
                    some (a, ⟨b, pyJoin sp a, c⟩) := by
                  unfold lineEntryCfg
                  rw [if_neg hblank, hsp]
                  dsimp only
                  rw [if_pos hv]
                rw [List.filterMap_cons_some hsome]
                rw [ih _ m h name]
                cases hlast : lastWith name (rest.filterMap (lineEntryCfg sp)) with
                | some cf => simp [lastWith, hlast]
                | none =>
                  simp only [lastWith, hlast]
                  by_cases hn : a = name
                  · subst hn
                    rw [if_pos rfl, dictGet?_insert_self]
                  · rw [if_neg hn, dictGet?_insert_ne _ _ _ _ fun he => hn he.symm]
              · rw [if_neg hv] at h
                cases h
            | cons d ds => rw [hsp] at h; cases h

theorem filter_len_of_dictGet {α : Type} (m : List (String × α))
    (hnd : (m.map Prod.fst).Nodup) (name : String) (c : α)
    (h : dictGet? name m = some c) :
    (m.filter (fun p => p.1 == name)).length = 1 := by
  induction m with
  | nil => cases h
  | cons q rest ih =>
    simp only [List.map_cons, List.nodup_cons] at hnd
    unfold dictGet? at h
    by_cases hq : q.1 == name
    · have hqn : q.1 = name := by simpa using hq
      have hrest : rest.filter (fun p => p.1 == name) = [] := by
        rw [List.filter_eq_nil_iff]
        intro p hp hbeq
        have : p.1 = q.1 := by
          rw [hqn]
          simpa using hbeq
        exact hnd.1 (List.mem_map.mpr ⟨p, hp, this⟩)
      rw [List.filter_cons, if_pos hq, hrest]
      rfl
    · rw [if_neg (by simpa using hq : ¬(q.1 == name) = true)] at h
      rw [List.filter_cons, if_neg (by simpa using hq)]
      exact ih hnd.2 h

/-! ## Claims about configuration parsing -/

/-- C10: when loading succeeds, looking a name up in the map yields the
configuration of the last non-blank line carrying that name (later lines
overwrite earlier ones), such a name occupies exactly one entry of the map,
and an inline `#` comment suffix is stripped before a line is parsed. -/
theorem load_last_wins (sp : String) (ls : List String)
    (m : List (String × UpdaterCfg)) (h : load_repositories sp ls [] = .ok m) :
    (∀ name, dictGet? name m = lastWith name (ls.filterMap (lineEntryCfg sp)))
    ∧ (∀ name c, dictGet? name m = some c →
        (m.filter (fun p => p.1 == name)).length = 1)
    ∧ (∀ l cmt, '#' ∉ l.data → processLine (l ++ "#" ++ cmt) = processLine l) := by
  refine ⟨?_, ?_, fun l cmt hl => processLine_comment l cmt hl⟩
  · intro name
    rw [load_lookup_lastWith sp ls [] m h name]
    cases lastWith name (ls.filterMap (lineEntryCfg sp)) <;> rfl
  · intro name c hc
    exact filter_len_of_dictGet m (load_ok_nodup sp ls [] m h (by simp)) name c hc

/-- Witness for C10: two lines named `a` around one named `b`, the second
`a` line carrying an inline comment; the final map holds the later
configuration once. -/
theorem load_last_wins_witness :
    dictGet? "a"
        [("a", (⟨"git", "/s/a", "u3"⟩ : UpdaterCfg)), ("b", ⟨"git", "/s/b", "u2"⟩)] =
      lastWith "a" (["a git u1", "b git u2", "a git u3 # newer"].filterMap
        (lineEntryCfg "/s"))
    ∧ ([("a", (⟨"git", "/s/a", "u3"⟩ : UpdaterCfg)),
        ("b", ⟨"git", "/s/b", "u2"⟩)].filter (fun p => p.1 == "a")).length = 1
    ∧ processLine ("x git u " ++ "#" ++ " note") = processLine "x git u " := by
  have h := load_last_wins "/s" ["a git u1", "b git u2", "a git u3 # newer"]
    [("a", ⟨"git", "/s/a", "u3"⟩), ("b", ⟨"git", "/s/b", "u2"⟩)] (by rfl)
  exact ⟨h.1 "a", h.2.1 "a" ⟨"git", "/s/a", "u3"⟩ (by rfl),
    h.2.2 "x git u " " note" (by decide)⟩

/-! ## Lemmas about line and field splitting -/

theorem data_append_char (a b : String) (c : Char) :
    (a ++ String.mk [c] ++ b).data = a.data ++ c :: b.data := by
  rw [String.data_append, String.data_append, List.append_assoc]
  rfl

theorem splitLinesAux_no_nl (xs : List Char) (acc : List Char) (h : '\n' ∉ xs) :
    splitLinesAux xs acc = [acc.reverse ++ xs] := by
  induction xs generalizing acc with
  | nil => simp [splitLinesAux]
  | cons c cs ih =>
    have hc : ¬(c = '\n') := fun he => h (he ▸ List.mem_cons_self c cs)
    rw [splitLinesAux, if_neg hc, ih _ fun hm => h (List.mem_cons_of_mem c hm)]
    simp

theorem splitLinesAux_append (xs ys : List Char) (acc : List Char) (h : '\n' ∉ xs) :
    splitLinesAux (xs ++ '\n' :: ys) acc = (acc.reverse ++ xs) :: splitLinesAux ys [] := by
  induction xs generalizing acc with
  | nil => simp [splitLinesAux]
  | cons c cs ih =>
    have hc : ¬(c = '\n') := fun he => h (he ▸ List.mem_cons_self c cs)
    rw [List.cons_append, splitLinesAux, if_neg hc,
      ih _ fun hm => h (List.mem_cons_of_mem c hm)]
    simp

theorem splitLines_pyJoinNl (parts : List String) (hne : parts ≠ [])
    (h : ∀ p ∈ parts, '\n' ∉ p.data) : splitLines (pyJoinNl parts) = parts := by
  induction parts with
  | nil => exact absurd rfl hne
  | cons p rest ih =>
    cases rest with
    | nil =>
      show splitLines p = [p]
      unfold splitLines
      rw [splitLinesAux_no_nl p.data [] (h p (List.mem_cons_self p []))]
      rfl
    | cons q rest' =>
      have hjoin : pyJoinNl (p :: q :: rest') = p ++ "\n" ++ pyJoinNl (q :: rest') := rfl
      rw [hjoin]
      unfold splitLines
      rw [data_append_char p (pyJoinNl (q :: rest')) '\n']
      rw [splitLinesAux_append _ _ _ (h p (List.mem_cons_self p _))]
      rw [List.map_cons]
      have ihq := ih (by simp) fun x hx => h x (List.mem_cons_of_mem p hx)
      unfold splitLines at ihq
      rw [ihq]
      rfl

theorem split1Aux_no_space (xs ys : List Char) (acc : List Char) (h : ' ' ∉ xs) :
    split1Aux (xs ++ ' ' :: ys) acc = [acc.reverse ++ xs, ys] := by
  induction xs generalizing acc with
  | nil => simp [split1Aux]
  | cons c cs ih =>
    have hc : ¬(c = ' ') := fun he => h (he ▸ List.mem_cons_self c cs)
    rw [List.cons_append, split1Aux, if_neg hc,
      ih _ fun hm => h (List.mem_cons_of_mem c hm)]
    simp

theorem split1_keyval (k v : String) (h : ' ' ∉ k.data) :
    split1 (k ++ " " ++ v) = [k, v] := by
  unfold split1
  rw [data_append_char k v ' ', split1Aux_no_space k.data v.data [] h]
  rfl

theorem indexOf1_append_blank (A B : List String) (h : ∀ x ∈ A, ¬(x == "")) :
    indexOf1 (· == "") (A ++ "" :: B) = some A.length := by
  induction A with
  | nil => simp [indexOf1]
  | cons a A' ih =>
    rw [List.cons_append, indexOf1,
      if_neg (by simpa using h a (List.mem_cons_self a A')),
      ih fun x hx => h x (List.mem_cons_of_mem a hx)]
    rfl

theorem find?_tree_pairs (l : List (String × String)) :
    (l.map fun p => [p.1, p.2]).find? (fun g => g.head? == some "tree") =
      (l.find? (fun p => p.1 == "tree")).map fun p => [p.1, p.2] := by
  induction l with
  | nil => rfl
  | cons q rest ih =>
    rw [List.map_cons, List.find?_cons, List.find?_cons]
    have : (([q.1, q.2] : List String).head? == some "tree") = (q.1 == "tree") := by
      simp
    rw [this]
    cases hq : (q.1 == "tree") with
    | true => rfl
    | false => exact ih

theorem extractTree_pairs (l : List (String × String)) :
    extractTree (l.map fun p => [p.1, p.2]) =
      match (l.filter (fun p => p.1 == "tree")).map Prod.snd with
      | [t] => .ok t
      | _ => .error .malformedCommit := by
  induction l with
  | nil => rfl
  | cons p rest ih =>
    rw [List.map_cons, extractTree]
    have hhead : (([p.1, p.2] : List String).head? == some "tree") = (p.1 == "tree") := by
      simp
    rw [hhead]
    by_cases hp : (p.1 == "tree") = true
    · rw [if_pos hp]
      have hget : ([p.1, p.2] : List String).get? 1 = some p.2 := rfl
      rw [hget, find?_tree_pairs rest]
      rw [List.filter_cons, if_pos hp, List.map_cons]
      cases hf : rest.find? (fun p => p.1 == "tree") with
      | none =>
        have hfil : rest.filter (fun p => p.1 == "tree") = [] := by
          rw [List.filter_eq_nil_iff]
          intro x hx hpx
          exact (List.find?_eq_none.mp hf x hx) hpx
        rw [hfil]
        rfl
      | some q =>
        have hmem : q ∈ rest.filter (fun p => p.1 == "tree") := by
          have hpq := List.find?_some hf
          exact List.mem_filter.mpr ⟨List.mem_of_find?_eq_some hf, hpq⟩
        cases hfil : rest.filter (fun p => p.1 == "tree") with
        | nil => rw [hfil] at hmem; cases hmem
        | cons r rs => rfl
    · rw [if_neg hp, List.filter_cons, if_neg hp]
      exact ih

theorem fieldValues_pairs (key : String) (l : List (String × String)) :
    fieldValues key (l.map fun p => [p.1, p.2]) =
      .ok ((l.filter (fun p => p.1 == key)).map Prod.snd) := by
  induction l with
  | nil => rfl
  | cons p rest ih =>
    rw [List.map_cons, fieldValues]
    have hhead : (([p.1, p.2] : List String).head? == some key) = (p.1 == key) := by
      simp
    rw [hhead]
    by_cases hp : (p.1 == key) = true
    · rw [if_pos hp]
      have hget : ([p.1, p.2] : List String).get? 1 = some p.2 := rfl
      rw [hget, ih, List.filter_cons, if_pos hp, List.map_cons]
      rfl
    · rw [if_neg hp, List.filter_cons, if_neg hp]
      exact ih

/-- C4: parsing a raw commit description — header lines of `key value`
pairs up to the first blank line, then a free-text body — extracts the
unique `tree` value and the `parent` values in their original order, with
the summary being exactly the body lines joined by newline; a header with
zero or at least two `tree` fields fails with the error the spec calls
`MalformedCommitError`. -/
theorem parse_commit_spec (hdr : List (String × String)) (body : List String) (t : String)
    (hk : ∀ p ∈ hdr, ' ' ∉ p.1.data ∧ '\n' ∉ p.1.data ∧ '\n' ∉ p.2.data)
    (hb : ∀ l ∈ body, '\n' ∉ l.data) :
    ((hdr.filter (fun p => p.1 == "tree")).map Prod.snd = [t] →
      parse_commit (pyJoinNl (hdr.map (fun p => p.1 ++ " " ++ p.2) ++ "" :: body)) =
        .ok ⟨t, (hdr.filter (fun p => p.1 == "parent")).map Prod.snd, pyJoinNl body⟩)
    ∧ ((hdr.filter (fun p => p.1 == "tree")).length ≠ 1 →
      parse_commit (pyJoinNl (hdr.map (fun p => p.1 ++ " " ++ p.2) ++ "" :: body)) =
        .error .malformedCommit) := by
  have hline : ∀ p : String × String,
      (p.1 ++ " " ++ p.2).data = p.1.data ++ ' ' :: p.2.data :=
    fun p => data_append_char p.1 p.2 ' '
  have hsplit : splitLines
      (pyJoinNl (hdr.map (fun p => p.1 ++ " " ++ p.2) ++ "" :: body)) =
      hdr.map (fun p => p.1 ++ " " ++ p.2) ++ "" :: body := by
    apply splitLines_pyJoinNl
    · simp
    · intro x hx
      rcases List.mem_append.mp hx with hxh | hxb
      · obtain ⟨p, hp, hpx⟩ := List.mem_map.mp hxh
        rw [← hpx, hline p]
        intro hnl
        rcases List.mem_append.mp hnl with h1 | h2
        · exact ((hk p hp).2.1) h1
        · rcases List.mem_cons.mp h2 with he | h3
          · cases he
          · exact ((hk p hp).2.2) h3
      · rcases List.mem_cons.mp hxb with he | h3
        · rw [he]
          simp
        · exact hb x h3
  have hblankline : ∀ x ∈ hdr.map (fun p => p.1 ++ " " ++ p.2), ¬(x == "") := by
    intro x hx
    obtain ⟨p, hp, hpx⟩ := List.mem_map.mp hx
    intro hbeq
    have hxe : x = "" := by simpa using hbeq
    have : x.data = p.1.data ++ ' ' :: p.2.data := hpx ▸ hline p
    rw [hxe] at this
    exact absurd this.symm (by simp)
  have hidx : indexOf1 (· == "")
      (hdr.map (fun p => p.1 ++ " " ++ p.2) ++ "" :: body) =
      some (hdr.map (fun p => p.1 ++ " " ++ p.2)).length :=
    indexOf1_append_blank _ body hblankline
  have htake : (hdr.map (fun p => p.1 ++ " " ++ p.2) ++ "" :: body).take
      (hdr.map (fun p => p.1 ++ " " ++ p.2)).length =
      hdr.map (fun p => p.1 ++ " " ++ p.2) := List.take_left _ _
  have hdrop : (hdr.map (fun p => p.1 ++ " " ++ p.2) ++ "" :: body).drop
      ((hdr.map (fun p => p.1 ++ " " ++ p.2)).length + 1) = body := by
    rw [← List.drop_drop, List.drop_left]
    rfl
  have hfields : (hdr.map (fun p => p.1 ++ " " ++ p.2)).map split1 =
      hdr.map (fun p => [p.1, p.2]) := by
    rw [List.map_map]
    exact List.map_congr_left fun p hp =>
      split1_keyval p.1 p.2 (hk p hp).1
  constructor
  · intro htree
    unfold parse_commit
    rw [hsplit, hidx]
    dsimp only
    rw [htake, hfields, extractTree_pairs, htree, fieldValues_pairs, hdrop]
  · intro hlen
    unfold parse_commit
    rw [hsplit, hidx]
    dsimp only
    rw [htake, hfields, extractTree_pairs]
    cases hfil : (hdr.filter (fun p => p.1 == "tree")).map Prod.snd with
    | nil => rfl
    | cons x xs =>
      cases xs with
      | nil =>
        exfalso
        apply hlen
        have := congrArg List.length hfil
        rwa [List.length_map] at this
      | cons y ys => rfl

/-- Witness for C4: a well-formed description with one tree and two
parents parses; a description with no tree field and one with two tree
fields are both malformed. -/
theorem parse_commit_spec_witness :
    parse_commit (pyJoinNl ([("tree", "t"), ("parent", "p1"),
        ("parent", "p2")].map (fun p => p.1 ++ " " ++ p.2) ++ "" :: ["hello", "world"])) =
      .ok ⟨"t", ["p1", "p2"], pyJoinNl ["hello", "world"]⟩
    ∧ parse_commit (pyJoinNl ([("author", "a")].map
        (fun p => p.1 ++ " " ++ p.2) ++ "" :: ["msg"])) = .error .malformedCommit
    ∧ parse_commit (pyJoinNl ([("tree", "t1"), ("tree", "t2")].map
        (fun p => p.1 ++ " " ++ p.2) ++ "" :: ["msg"])) = .error .malformedCommit := by
  refine ⟨?_, ?_, ?_⟩
  · exact (parse_commit_spec [("tree", "t"), ("parent", "p1"), ("parent", "p2")]
      ["hello", "world"] "t" (by decide) (by decide)).1 (by rfl)
  · exact (parse_commit_spec [("author", "a")] ["msg"] ""
      (by decide) (by decide)).2 (by decide)
  · exact (parse_commit_spec [("tree", "t1"), ("tree", "t2")] ["msg"] ""
      (by decide) (by decide)).2 (by decide)

end Xref
